import Mathlib

/-!
Verification of the gobble download tool (src/gobble.go) against its
specification.  Go strings are modelled as `List Char`, the filesystem as an
association list of file names to contents, the HTTP response body as a
`List Nat` of bytes followed by either a clean end-of-stream or a read error,
and the destination sink as a script of write results.  Floating point
percentages are modelled by exact rationals; the one place this matters
(`totalBytes = 0`, where the Go code divides by zero producing NaN/Inf) is
modelled explicitly.
-/

/-- Go strings, modelled as lists of characters. -/
abbrev GoStr := List Char

/- ------------------------------------------------------------------ -/
/- Target resolver (gobble.go lines 130-168)                           -/
/- ------------------------------------------------------------------ -/

/-- Model of `normalizeURLTarget` (gobble.go lines 162-168): if the target
does not start with the literal "http://", prepend "http://"; otherwise
return it unchanged.  `List.isPrefixOf` models `strings.HasPrefix`. -/
def normalizeURLTarget (urlTarget : GoStr) : GoStr :=
  if "http://".toList.isPrefixOf urlTarget then urlTarget
  else "http://".toList ++ urlTarget

/-- Model of the `.Path` field of Go's `url.Parse` restricted to the URL
shapes gobble hands it (the target always carries a scheme such as
"http://" by the time `openOutfile` runs).  After the "scheme://" part the
fragment ('#') and query ('?') are split off and the path is everything
from the first '/' of the remainder.  Percent-decoding and userinfo are not
modelled; no claim involves them. -/
def urlPath (url : GoStr) : GoStr :=
  let afterScheme := (url.dropWhile (· ≠ ':')).drop 3
  let noFragment := afterScheme.takeWhile (· ≠ '#')
  let noQuery := noFragment.takeWhile (· ≠ '?')
  noQuery.dropWhile (· ≠ '/')

/-- Model of Go `filepath.Base` on unix paths: empty path gives ".",
a path of only slashes gives "/", otherwise trailing slashes are removed
and the part after the last remaining '/' is returned. -/
def filepathBase (p : GoStr) : GoStr :=
  if p = [] then ['.']
  else
    let q := (p.reverse.dropWhile (· = '/')).reverse
    if q = [] then ['/']
    else (q.reverse.takeWhile (· ≠ '/')).reverse

/-- The file-name resolution performed inside `openOutfile`
(gobble.go lines 134-145): an explicit non-empty `-o` name wins; otherwise
the base of the parsed URL's path is used, with "index.html" substituted
when that base is "." or "/". -/
def resolveFileName (outFileName urlTarget : GoStr) : GoStr :=
  if outFileName = [] then
    let fileName := filepathBase (urlPath urlTarget)
    if fileName = ['.'] ∨ fileName = ['/'] then "index.html".toList else fileName
  else outFileName

/-- The filesystem: an association list from file names to byte contents. -/
abbrev FS := List (GoStr × List Nat)

/-- Model of the `os.Stat` existence check: a name exists when some entry
carries it. -/
def fsExists (fs : FS) (name : GoStr) : Bool :=
  fs.any fun e => e.1 == name

/-- Model of `openOutfile` (gobble.go lines 132-158): resolve the file name,
fail with "<name> already exists\n" when it is present on the filesystem
(leaving the filesystem untouched), otherwise create it empty.  The result
pairs the `Except` outcome with the filesystem after the call. -/
def openOutfile (outFileName urlTarget : GoStr) (fs : FS) :
    Except GoStr GoStr × FS :=
  let fileName := resolveFileName outFileName urlTarget
  if fsExists fs fileName then
    (Except.error (fileName ++ " already exists\n".toList), fs)
  else
    (Except.ok fileName, (fileName, []) :: fs)

/- ------------------------------------------------------------------ -/
/- Progress reporter (gobble.go lines 170-194)                         -/
/- ------------------------------------------------------------------ -/

/-- The fixed progress bar of gobble.go line 37: 35 dashes. -/
def progressBar : String := "-----------------------------------"

/-- Right-aligned padding to a minimum width, as in the `%10d` verb. -/
def padLeft (s : String) (w : Nat) : String :=
  String.mk (List.replicate (w - s.length) ' ') ++ s

/-- Left-aligned padding to a minimum width, as in the `%-30s` verb. -/
def padRight (s : String) (w : Nat) : String :=
  s ++ String.mk (List.replicate (w - s.length) ' ')

/-- Go's conversion of a (finite) floating value to `int`: truncation
toward zero. -/
def goIntOfRat (q : ℚ) : Int :=
  if q < 0 then -⌊-q⌋ else ⌊q⌋

/-- Go string slicing `s[lo:hi]`: in bounds it yields the substring,
out of bounds it panics, modelled by `none`. -/
def goSlice (s : String) (lo hi : Int) : Option String :=
  if 0 ≤ lo ∧ lo ≤ hi ∧ hi ≤ (s.length : Int) then
    some ((s.drop lo.toNat).take (hi - lo).toNat)
  else none

/-- The percentage computed by `statusString` (gobble.go line 187),
`float64(bytesRead) / float64(totalBytes) * 100`, in exact arithmetic. -/
def percentageOf (bytesRead : Nat) (totalBytes : Int) : ℚ :=
  (bytesRead : ℚ) / (totalBytes : ℚ) * 100

/-- Rendering of a rational to one decimal place, standing in for the
`%2.1f` verb (the minimum width 2 never binds: the output always has at
least three characters).  The decimal rounding detail of Go's float64
formatting is approximated by rounding the exact value; no claim depends
on this text. -/
def fmtFixed1 (q : ℚ) : String :=
  let t : Int := round (q * 10)
  toString (t / 10) ++ "." ++ toString ((t % 10).natAbs)

/-- Model of `statusString` (gobble.go lines 174-194).  A result of `none`
models a runtime panic.  For `totalBytes = -1` the unknown-length branch is
taken.  For `totalBytes = 0` the Go code divides zero by zero in float64,
and converting the resulting NaN/Inf to `int` produces an out-of-range
slice index (on amd64), i.e. a panic, modelled as `none`.  Otherwise the
percentage is computed, the bar is sliced as
`progressBar[1 : 2+int(percentage/4)]` (panicking when out of bounds), and
the line is assembled as by the Sprintf verbs of lines 184 and 190. -/
def statusString (bytesRead : Nat) (totalBytes : Int) (allDone : Bool) :
    Option String :=
  let msg := if allDone then "Finished:    " else "In progress: "
  if totalBytes = -1 then
    let progressString := "<=>"
    some (msg ++ " " ++ padLeft (toString bytesRead) 10 ++ " Bytes    " ++
      padRight progressString 30 ++ "  \r")
  else if totalBytes = 0 then none
  else
    let percentage := percentageOf bytesRead totalBytes
    (goSlice progressBar 1 (2 + goIntOfRat (percentage / 4))).map fun bar =>
      let progressString := bar ++ ">"
      msg ++ " " ++ padLeft (toString bytesRead) 10 ++ " Bytes    " ++
        padRight progressString 30 ++ "  " ++ fmtFixed1 percentage ++ "%\r"

/- ------------------------------------------------------------------ -/
/- Transfer engine (gobble.go lines 77-128)                            -/
/- ------------------------------------------------------------------ -/

/-- Chunk size for reading and writing, gobble.go line 32. -/
def numBytes : Nat := 40960

/-- Result of one `file.Write` call: the byte count reported written and an
optional error, exactly the `(int, error)` pair Go returns. -/
structure WriteRes where
  nOut : Nat
  err : Option String
deriving DecidableEq

/-- Model of `bufWrite` (gobble.go lines 122-128): the destination is a
script of write results consumed one call at a time.  When the script is
exhausted the destination behaves as a correct `io.Writer`: full count,
no error. -/
def bufWrite (content : List Nat) (ws : List WriteRes) :
    WriteRes × List WriteRes :=
  match ws with
  | [] => (⟨content.length, none⟩, [])
  | w :: rest => (w, rest)

/-- Errors `copyContent` can return, named after their source sites. -/
inductive CopyErr where
  | shortWrite (n nOut : Nat)
  | writeFail (msg : String)
  | readFail (msg : String)
deriving DecidableEq

/-- How the `copyContent` call ends: a Go `return bytesRead, err`, or the
`log.Fatal` on a mid-loop write error (which terminates the process and
never returns). -/
inductive CopyResult where
  | ret (bytesRead : Nat) (err : Option CopyErr)
  | fatal (msg : String)
deriving DecidableEq

/-- Everything observable about one `copyContent` run: how it ended, the
bytes that reached the destination, the chunk passed to each `bufWrite`
call, and the `bytesRead` value of each progress update printed. -/
structure CopyOut where
  res : CopyResult
  written : List Nat
  calls : List (List Nat)
  updates : List Nat
deriving DecidableEq

/-- Model of the loop of `copyContent` (gobble.go lines 85-109) plus the
trailing write (lines 112-118), entered with running count `bytesRead`.
`data` is what remains of the response body; reading it behaves as
`io.ReadFull` on a stream that yields all of `data` and then either a clean
end-of-stream (`tailErr = none`) or the read error `tailErr`.  While at
least `numBytes` bytes remain the read fills the buffer completely and the
loop body runs: a full-buffer write whose error is fatal (`log.Fatal`),
the `nOut != n` short-write check, the count update, and a progress update
unless `wantStdout`.  Once fewer than `numBytes` remain, `io.ReadFull`
returns the clean-EOF errors and the loop breaks to the trailing write of
`buffer[:n]`, whose reported count is ignored; a non-clean `tailErr` is
returned as `(0, err)` instead. -/
def copyLoop (data : List Nat) (tailErr : Option String) (ws : List WriteRes)
    (wantStdout : Bool) (bytesRead : Nat) : CopyOut :=
  if h : numBytes ≤ data.length then
    let chunk := data.take numBytes
    let (w, ws') := bufWrite chunk ws
    match w.err with
    | some m =>
      { res := .fatal m, written := chunk.take w.nOut,
        calls := [chunk], updates := [] }
    | none =>
      if w.nOut ≠ numBytes then
        { res := .ret 0 (some (.shortWrite numBytes w.nOut)),
          written := chunk.take w.nOut, calls := [chunk], updates := [] }
      else
        let rest := copyLoop (data.drop numBytes) tailErr ws' wantStdout
          (bytesRead + numBytes)
        { res := rest.res,
          written := chunk.take w.nOut ++ rest.written,
          calls := chunk :: rest.calls,
          updates := (if wantStdout then [] else [bytesRead + numBytes]) ++
            rest.updates }
  else
    match tailErr with
    | some m =>
      { res := .ret 0 (some (.readFail m)), written := [],
        calls := [], updates := [] }
    | none =>
      let (w, _) := bufWrite data ws
      match w.err with
      | some m =>
        { res := .ret 0 (some (.writeFail m)), written := data.take w.nOut,
          calls := [data], updates := [] }
      | none =>
        { res := .ret (bytesRead + data.length) none,
          written := data.take w.nOut, calls := [data], updates := [] }
termination_by data.length
decreasing_by
  simp only [List.length_drop, numBytes] at *
  omega

/-- Model of `copyContent` (gobble.go lines 79-119): the loop started with
`bytesRead = 0`. -/
def copyContent (data : List Nat) (tailErr : Option String)
    (ws : List WriteRes) (wantStdout : Bool) : CopyOut :=
  copyLoop data tailErr ws wantStdout 0

/-- The chunk decomposition of a body: full `numBytes` chunks followed by
one final (possibly empty) chunk of whatever is left. -/
def chunks (data : List Nat) : List (List Nat) :=
  if numBytes ≤ data.length then
    data.take numBytes :: chunks (data.drop numBytes)
  else [data]
termination_by data.length
decreasing_by
  simp only [List.length_drop, numBytes] at *
  omega

/-- The progress updates of an error-free run entered with count `b`:
one update per full chunk, at the running totals, unless stdout mode. -/
def cleanUpdates (wantStdout : Bool) (b : Nat) (data : List Nat) : List Nat :=
  if numBytes ≤ data.length then
    (if wantStdout then [] else [b + numBytes]) ++
      cleanUpdates wantStdout (b + numBytes) (data.drop numBytes)
  else []
termination_by data.length
decreasing_by
  simp only [List.length_drop, numBytes] at *
  omega

/- ------------------------------------------------------------------ -/
/- Helper lemmas                                                       -/
/- ------------------------------------------------------------------ -/

theorem progressBar_length : progressBar.length = 35 := rfl

/-- On a clean stream with a well-behaved destination, the loop entered
with running count `b` returns `b` plus the remaining length, writes the
remaining bytes verbatim in `chunks` pieces, and emits `cleanUpdates`. -/
theorem copyLoop_clean_aux (n : Nat) : ∀ (data : List Nat),
    data.length ≤ n → ∀ (so : Bool) (b : Nat),
    copyLoop data none [] so b =
      { res := .ret (b + data.length) none,
        written := data,
        calls := chunks data,
        updates := cleanUpdates so b data } := by
  induction n with
  | zero =>
    intro data hd so b
    have h : ¬ numBytes ≤ data.length := by
      simp only [Nat.le_zero.mp hd, numBytes]
      omega
    rw [copyLoop, dif_neg h, chunks, if_neg h, cleanUpdates, if_neg h]
    simp [bufWrite, List.take_length]
  | succ n ih =>
    intro data hd so b
    by_cases h : numBytes ≤ data.length
    · rw [copyLoop, dif_pos h, chunks, if_pos h, cleanUpdates, if_pos h]
      have hlen : (data.take numBytes).length = numBytes := by
        simp only [List.length_take]
        omega
      have hdrop : (data.drop numBytes).length ≤ n := by
        simp only [List.length_drop, numBytes] at *
        omega
      have harith : b + numBytes + (data.drop numBytes).length =
          b + data.length := by
        simp only [List.length_drop]
        omega
      simp only [bufWrite, hlen]
      rw [ih (data.drop numBytes) hdrop so (b + numBytes)]
      have htt : List.take numBytes (List.take numBytes data) ++
          List.drop numBytes data = data := by
        rw [List.take_take, Nat.min_self, List.take_append_drop]
      have harith2 : b + numBytes + (data.length - numBytes) =
          b + data.length := by omega
      simp [harith, harith2, htt]
    · rw [copyLoop, dif_neg h, chunks, if_neg h, cleanUpdates, if_neg h]
      simp [bufWrite, List.take_length]

theorem copyLoop_clean (data : List Nat) (so : Bool) (b : Nat) :
    copyLoop data none [] so b =
      { res := .ret (b + data.length) none,
        written := data,
        calls := chunks data,
        updates := cleanUpdates so b data } :=
  copyLoop_clean_aux data.length data le_rfl so b

/-- Any error the loop returns (as opposed to `log.Fatal`) carries a zero
byte count, whatever the stream, the write script and the entry count. -/
theorem copyLoop_err_zero_aux (n : Nat) : ∀ (data : List Nat),
    data.length ≤ n → ∀ (te : Option String) (ws : List WriteRes)
    (so : Bool) (b br : Nat) (e : CopyErr),
    (copyLoop data te ws so b).res = CopyResult.ret br (some e) → br = 0 := by
  induction n with
  | zero =>
    intro data hd te ws so b br e
    have h : ¬ numBytes ≤ data.length := by
      simp only [Nat.le_zero.mp hd, numBytes]
      omega
    rw [copyLoop.eq_def, dif_neg h]
    cases te with
    | some m =>
      intro hh
      injection hh with h1 h2
      omega
    | none =>
      cases ws with
      | nil =>
        intro hh
        injection hh with h1 h2
        exact absurd h2 (by simp)
      | cons w rest =>
        obtain ⟨nOut, werr⟩ := w
        cases werr with
        | some m =>
          intro hh
          injection hh with h1 h2
          omega
        | none =>
          intro hh
          injection hh with h1 h2
          exact absurd h2 (by simp)
  | succ n ih =>
    intro data hd te ws so b br e
    have hdrop : numBytes ≤ data.length → (data.drop numBytes).length ≤ n := by
      intro hnb
      simp only [List.length_drop, numBytes] at *
      omega
    by_cases h : numBytes ≤ data.length
    · rw [copyLoop.eq_def, dif_pos h]
      have hlen : (data.take numBytes).length = numBytes := by
        simp only [List.length_take]
        omega
      cases ws with
      | nil =>
        dsimp only [bufWrite]
        rw [hlen, if_neg (by omega)]
        intro hh
        exact ih (data.drop numBytes) (hdrop h) te [] so (b + numBytes) br e hh
      | cons w rest =>
        obtain ⟨nOut, werr⟩ := w
        dsimp only [bufWrite]
        cases werr with
        | some m =>
          intro hh
          exact absurd hh (by simp)
        | none =>
          by_cases hk : nOut ≠ numBytes
          · rw [if_pos hk]
            intro hh
            injection hh with h1 h2
            omega
          · rw [if_neg hk]
            intro hh
            exact ih (data.drop numBytes) (hdrop h) te rest so (b + numBytes) br e hh
    · rw [copyLoop.eq_def, dif_neg h]
      cases te with
      | some m =>
        intro hh
        injection hh with h1 h2
        omega
      | none =>
        cases ws with
        | nil =>
          intro hh
          injection hh with h1 h2
          exact absurd h2 (by simp)
        | cons w rest =>
          obtain ⟨nOut, werr⟩ := w
          cases werr with
          | some m =>
            intro hh
            injection hh with h1 h2
            omega
          | none =>
            intro hh
            injection hh with h1 h2
            exact absurd h2 (by simp)

/-- Every progress update of a clean run entered at count `b` lies strictly
above `b` and at most `b` plus the remaining length. -/
theorem cleanUpdates_bounds_aux (n : Nat) : ∀ (data : List Nat),
    data.length ≤ n → ∀ (so : Bool) (b : Nat),
    ∀ x ∈ cleanUpdates so b data, b < x ∧ x ≤ b + data.length := by
  induction n with
  | zero =>
    intro data hd so b x hx
    have h : ¬ numBytes ≤ data.length := by
      simp only [Nat.le_zero.mp hd, numBytes]
      omega
    rw [cleanUpdates, if_neg h] at hx
    exact absurd hx (List.not_mem_nil x)
  | succ n ih =>
    intro data hd so b x hx
    have hnb : (0 : Nat) < numBytes := by norm_num [numBytes]
    by_cases h : numBytes ≤ data.length
    · rw [cleanUpdates, if_pos h] at hx
      have hdrop : (data.drop numBytes).length ≤ n := by
        simp only [List.length_drop, numBytes] at *
        omega
      rcases List.mem_append.mp hx with h1 | h2
      · cases so with
        | true => exact absurd h1 (List.not_mem_nil x)
        | false =>
          have hx1 : x = b + numBytes := List.mem_singleton.mp h1
          omega
      · have hb2 := ih (data.drop numBytes) hdrop so (b + numBytes) x h2
        simp only [List.length_drop] at hb2
        omega
    · rw [cleanUpdates, if_neg h] at hx
      exact absurd hx (List.not_mem_nil x)

/-- The progress updates of a clean run are strictly increasing. -/
theorem cleanUpdates_sorted_aux (n : Nat) : ∀ (data : List Nat),
    data.length ≤ n → ∀ (so : Bool) (b : Nat),
    List.Sorted (· < ·) (cleanUpdates so b data) := by
  induction n with
  | zero =>
    intro data hd so b
    have h : ¬ numBytes ≤ data.length := by
      simp only [Nat.le_zero.mp hd, numBytes]
      omega
    rw [cleanUpdates, if_neg h]
    exact List.sorted_nil
  | succ n ih =>
    intro data hd so b
    by_cases h : numBytes ≤ data.length
    · rw [cleanUpdates, if_pos h]
      have hdrop : (data.drop numBytes).length ≤ n := by
        simp only [List.length_drop, numBytes] at *
        omega
      cases so with
      | true =>
        simpa using ih (data.drop numBytes) hdrop true (b + numBytes)
      | false =>
        simp only [Bool.false_eq_true, if_false, List.singleton_append]
        rw [List.sorted_cons]
        exact ⟨fun y hy =>
          (cleanUpdates_bounds_aux n (data.drop numBytes) hdrop false
            (b + numBytes) y hy).1,
          ih (data.drop numBytes) hdrop false (b + numBytes)⟩
    · rw [cleanUpdates, if_neg h]
      exact List.sorted_nil

/- ------------------------------------------------------------------ -/
/- Claim theorems                                                      -/
/- ------------------------------------------------------------------ -/

/-- C1: on a clean end-of-stream with a well-behaved destination,
`copyContent` terminates with no error returning a byte count equal to the
body length, the bytes reaching the destination are exactly the body's
bytes, and the write calls are full `numBytes` chunks followed by one
final partial chunk holding exactly the bytes read at end-of-stream. -/
theorem copyContent_clean_roundtrip (data : List Nat) (so : Bool) :
    (copyContent data none [] so).res = CopyResult.ret data.length none ∧
    (copyContent data none [] so).written = data ∧
    (copyContent data none [] so).calls = chunks data := by
  rw [copyContent, copyLoop_clean]
  simp

/-- C2: if at any loop iteration (any remaining stream, any entry count)
the write returns count `k` different from the `numBytes` just read,
`copyContent` aborts at once with the short-write integrity error, a zero
byte count, and no write beyond the one that failed: the calls from this
iteration on are just that single chunk, and no progress update fires. -/
theorem copyLoop_short_write_aborts (data : List Nat) (te : Option String)
    (rest : List WriteRes) (so : Bool) (b k : Nat)
    (hlen : numBytes ≤ data.length) (hk : k ≠ numBytes) :
    copyLoop data te (⟨k, none⟩ :: rest) so b =
      { res := .ret 0 (some (.shortWrite numBytes k)),
        written := (data.take numBytes).take k,
        calls := [data.take numBytes],
        updates := [] } := by
  rw [copyLoop.eq_def, dif_pos hlen]
  simp [bufWrite, hk]

theorem copyLoop_short_write_aborts_inst :
    numBytes ≤ (List.replicate numBytes 0).length ∧ (5 : Nat) ≠ numBytes ∧
    copyLoop (List.replicate numBytes 0) none [⟨5, none⟩] false 0 =
      { res := .ret 0 (some (.shortWrite numBytes 5)),
        written := ((List.replicate numBytes 0).take numBytes).take 5,
        calls := [(List.replicate numBytes 0).take numBytes],
        updates := [] } :=
  ⟨by simp, by norm_num [numBytes],
    copyLoop_short_write_aborts (List.replicate numBytes 0) none [] false 0 5
      (by simp) (by norm_num [numBytes])⟩

/-- C9: whenever `copyContent` returns a non-nil error, the byte count it
returns alongside is 0, regardless of how far the transfer had gotten. -/
theorem copyContent_err_returns_zero (data : List Nat) (te : Option String)
    (ws : List WriteRes) (so : Bool) (br : Nat) (e : CopyErr)
    (hh : (copyContent data te ws so).res = CopyResult.ret br (some e)) :
    br = 0 :=
  copyLoop_err_zero_aux data.length data le_rfl te ws so 0 br e hh

theorem copyContent_err_returns_zero_inst :
    (copyContent [1, 2, 3] none [⟨3, some "boom"⟩] false).res =
      CopyResult.ret 0 (some (CopyErr.writeFail "boom")) ∧ (0 : Nat) = 0 := by
  have hev : (copyContent [1, 2, 3] none [⟨3, some "boom"⟩] false).res =
      CopyResult.ret 0 (some (CopyErr.writeFail "boom")) := by
    rw [copyContent, copyLoop, dif_neg (by norm_num [numBytes])]
    simp [bufWrite]
  exact ⟨hev, copyContent_err_returns_zero [1, 2, 3] none [⟨3, some "boom"⟩]
    false 0 (CopyErr.writeFail "boom") hev⟩

/-- C6: in a transfer whose body does not exceed the known nonnegative
declared size (the guarantee Go's HTTP client provides by capping the body
at ContentLength), every progress update's byte count stays at most that
size, every reported percentage lies in [0, 100], and the sequence of
reported percentages is non-decreasing. -/
theorem copyContent_progress_invariants (data : List Nat) (tb : Int)
    (h0 : 0 ≤ tb) (hb : (data.length : Int) ≤ tb) :
    (∀ br ∈ (copyContent data none [] false).updates,
      (br : Int) ≤ tb ∧ 0 ≤ percentageOf br tb ∧ percentageOf br tb ≤ 100) ∧
    List.Sorted (· ≤ ·) ((copyContent data none [] false).updates.map
      fun br => percentageOf br tb) := by
  have hu : (copyContent data none [] false).updates =
      cleanUpdates false 0 data := by
    rw [copyContent, copyLoop_clean]
  rw [hu]
  have hbounds := cleanUpdates_bounds_aux data.length data le_rfl false 0
  have hsorted := cleanUpdates_sorted_aux data.length data le_rfl false 0
  rcases eq_or_lt_of_le h0 with hz | hpos
  · have hlen : data.length = 0 := by omega
    have hnil : cleanUpdates false 0 data = [] := by
      rw [cleanUpdates, if_neg (by simp [hlen, numBytes])]
    rw [hnil]
    exact ⟨fun br hbr => absurd hbr (List.not_mem_nil br), by simp⟩
  · have htbq : (0 : ℚ) < (tb : ℚ) := by exact_mod_cast hpos
    have hmono : ∀ a c : Nat, a < c →
        percentageOf a tb ≤ percentageOf c tb := by
      intro a c hac
      unfold percentageOf
      have hq : (a : ℚ) ≤ (c : ℚ) := by exact_mod_cast le_of_lt hac
      exact mul_le_mul_of_nonneg_right ((div_le_div_iff_of_pos_right htbq).mpr hq)
        (by norm_num)
    constructor
    · intro br hbr
      have hbb := hbounds br hbr
      have hbrtb : (br : Int) ≤ tb := by
        have h2 := hbb.2
        omega
      refine ⟨hbrtb, ?_, ?_⟩
      · unfold percentageOf
        exact mul_nonneg (div_nonneg (Nat.cast_nonneg br) (le_of_lt htbq))
          (by norm_num)
      · unfold percentageOf
        have hcast : (br : ℚ) ≤ (tb : ℚ) := by exact_mod_cast hbrtb
        calc (br : ℚ) / (tb : ℚ) * 100 ≤ 1 * 100 :=
              mul_le_mul_of_nonneg_right ((div_le_one htbq).mpr hcast)
                (by norm_num)
        _ = 100 := one_mul 100
    · exact List.Pairwise.map _ (fun a c hac => hmono a c hac) hsorted

theorem copyContent_progress_invariants_inst :
    ((0 : Int) ≤ 40960 ∧
      (((List.replicate numBytes 0).length : Int) ≤ 40960)) ∧
    ((∀ br ∈ (copyContent (List.replicate numBytes 0) none [] false).updates,
      (br : Int) ≤ 40960 ∧ 0 ≤ percentageOf br 40960 ∧
        percentageOf br 40960 ≤ 100) ∧
    List.Sorted (· ≤ ·)
      ((copyContent (List.replicate numBytes 0) none [] false).updates.map
        fun br => percentageOf br 40960)) :=
  ⟨⟨by norm_num, by norm_num [numBytes]⟩,
    copyContent_progress_invariants (List.replicate numBytes 0) 40960
      (by norm_num) (by norm_num [numBytes])⟩

/-- C4: for every byte count, when the declared total is the sentinel -1
`statusString` takes the unknown-length branch, rendering the static
"<=>" marker next to the byte count; the branch computes no percentage
and performs no division, and never panics. -/
theorem statusString_unknown_total (br : Nat) (d : Bool) :
    statusString br (-1) d =
      some ((if d then "Finished:    " else "In progress: ") ++ " " ++
        padLeft (toString br) 10 ++ " Bytes    " ++ padRight "<=>" 30 ++
        "  \r") ∧
    (statusString br (-1) d).isSome = true := by
  constructor
  · simp [statusString]
  · simp [statusString]

/-- C5 counterexample: `statusString` has no clamping, so a byte count
exceeding the total (here 200 of 100, an exact 200 percent even in
float64) makes the bar slice `progressBar[1:52]` run past the 35-character
bar and panic, modelled by `none`. -/
theorem statusString_no_clamp_cex :
    statusString 200 100 false = none := by
  norm_num [statusString, percentageOf, goIntOfRat, goSlice,
    progressBar_length]

/-- C5 amended: when the byte count does not exceed the known positive
total, the percentage lies in [0, 100], the filled bar length
1 + floor(percentage/4) is at most 26 and the slice indices stay within
the 35-character bar, so `statusString` does not panic. -/
theorem statusString_inbounds (br : Nat) (tb : Int) (d : Bool)
    (htb : 1 ≤ tb) (hbr : (br : Int) ≤ tb) :
    (statusString br tb d).isSome = true := by
  have h1 : ¬ (tb = -1) := by omega
  have h2 : ¬ (tb = 0) := by omega
  have htbq : (0 : ℚ) < (tb : ℚ) := by
    exact_mod_cast (by omega : (0 : Int) < tb)
  have hcast : (br : ℚ) ≤ (tb : ℚ) := by exact_mod_cast hbr
  have hpct0 : 0 ≤ percentageOf br tb :=
    mul_nonneg (div_nonneg (Nat.cast_nonneg br) (le_of_lt htbq)) (by norm_num)
  have hpct100 : percentageOf br tb ≤ 100 := by
    unfold percentageOf
    calc (br : ℚ) / (tb : ℚ) * 100 ≤ 1 * 100 :=
          mul_le_mul_of_nonneg_right ((div_le_one htbq).mpr hcast)
            (by norm_num)
    _ = 100 := one_mul 100
  have hq0 : 0 ≤ percentageOf br tb / 4 := by positivity
  have hq25 : percentageOf br tb / 4 ≤ 25 := by linarith
  have hfl : goIntOfRat (percentageOf br tb / 4) =
      ⌊percentageOf br tb / 4⌋ := by
    rw [goIntOfRat, if_neg (not_lt.mpr hq0)]
  have hfl0 : 0 ≤ ⌊percentageOf br tb / 4⌋ := Int.floor_nonneg.mpr hq0
  have hfl25 : ⌊percentageOf br tb / 4⌋ ≤ 25 := by
    have := Int.floor_le_floor hq25
    simpa using this
  have hlen : (progressBar.length : Int) = 35 := by
    rw [progressBar_length]
    norm_num
  have hcond : 0 ≤ (1 : Int) ∧ (1 : Int) ≤ 2 + ⌊percentageOf br tb / 4⌋ ∧
      2 + ⌊percentageOf br tb / 4⌋ ≤ (progressBar.length : Int) :=
    ⟨by norm_num, by omega, by omega⟩
  simp only [statusString, if_neg h1, if_neg h2, hfl]
  rw [goSlice, if_pos hcond]
  simp

theorem statusString_inbounds_inst :
    ((1 : Int) ≤ 100 ∧ ((50 : Nat) : Int) ≤ 100) ∧
    (statusString 50 100 false).isSome = true :=
  ⟨⟨by norm_num, by norm_num⟩,
    statusString_inbounds 50 100 false (by norm_num) (by norm_num)⟩

/-- C3: whenever the resolved output name already exists on the
filesystem, `openOutfile` returns the "already exists" error and the
filesystem — every existing file and its contents — is left exactly as it
was: nothing is created, overwritten or suffixed. -/
theorem openOutfile_existing_errors (name url : GoStr) (fs : FS)
    (h : fsExists fs (resolveFileName name url) = true) :
    openOutfile name url fs =
      (Except.error (resolveFileName name url ++ " already exists\n".toList),
        fs) := by
  simp [openOutfile, h]

theorem openOutfile_existing_errors_inst :
    fsExists [("index.html".toList, [])]
      (resolveFileName [] "http://example.com/".toList) = true ∧
    openOutfile [] "http://example.com/".toList
        [("index.html".toList, [])] =
      (Except.error (resolveFileName [] "http://example.com/".toList ++
        " already exists\n".toList), [("index.html".toList, [])]) :=
  ⟨by decide, openOutfile_existing_errors [] "http://example.com/".toList
    [("index.html".toList, [])] (by decide)⟩

/-- C7: an explicit non-empty output name resolves to exactly that name
regardless of the URL; with no explicit name, the final path segment of
the parsed URL is used, with index.html substituted for an empty or root
path, as on the spec's two examples. -/
theorem openOutfile_resolution :
    (∀ (name url : GoStr), name ≠ [] →
      (openOutfile name url []).1 = Except.ok name) ∧
    (openOutfile [] "http://example.com/path/file.zip".toList []).1 =
      Except.ok "file.zip".toList ∧
    (openOutfile [] "http://example.com/".toList []).1 =
      Except.ok "index.html".toList := by
  refine ⟨?_, by rfl, by rfl⟩
  intro name url hname
  simp [openOutfile, resolveFileName, fsExists, hname]

theorem openOutfile_resolution_inst :
    "custom.bin".toList ≠ ([] : GoStr) ∧
    (openOutfile "custom.bin".toList
      "http://example.com/path/file.zip".toList []).1 =
      Except.ok "custom.bin".toList :=
  ⟨by decide, openOutfile_resolution.1 "custom.bin".toList
    "http://example.com/path/file.zip".toList (by decide)⟩

/-- C8 counterexample: "https://example.com" already carries a scheme,
yet `normalizeURLTarget` does not return it unchanged — it only tests for
the literal "http://" and blindly prepends it. -/
theorem normalizeURLTarget_scheme_cex :
    normalizeURLTarget "https://example.com".toList ≠
      "https://example.com".toList ∧
    normalizeURLTarget "https://example.com".toList =
      "http://https://example.com".toList := by
  constructor
  · decide
  · decide

/-- C8 amended: `normalizeURLTarget` returns the string unchanged exactly
when it starts with the literal "http://"; any other input — including one
with a different scheme such as https:// — gets "http://" prepended.  It
is a pure string transform with no other validation. -/
theorem normalizeURLTarget_cases (s : GoStr) :
    ("http://".toList <+: s → normalizeURLTarget s = s) ∧
    (¬ "http://".toList <+: s →
      normalizeURLTarget s = "http://".toList ++ s) := by
  constructor
  · intro h
    rw [normalizeURLTarget, if_pos (by simpa using h)]
  · intro h
    rw [normalizeURLTarget, if_neg (by simpa using h)]

theorem normalizeURLTarget_cases_inst :
    ¬ "http://".toList <+: "example.com".toList ∧
    normalizeURLTarget "example.com".toList =
      "http://".toList ++ "example.com".toList :=
  ⟨by decide, (normalizeURLTarget_cases "example.com".toList).2 (by decide)⟩

/-- C10: `normalizeURLTarget` is idempotent: its output always starts with
"http://", so applying it a second time changes nothing. -/
theorem normalizeURLTarget_idempotent (s : GoStr) :
    normalizeURLTarget (normalizeURLTarget s) = normalizeURLTarget s := by
  by_cases h : ("http://".toList.isPrefixOf s) = true
  · have h1 : normalizeURLTarget s = s := by rw [normalizeURLTarget, if_pos h]
    rw [h1, h1]
  · have h1 : normalizeURLTarget s = "http://".toList ++ s := by
      rw [normalizeURLTarget, if_neg h]
    have hp : "http://".toList <+: "http://".toList ++ s := ⟨s, rfl⟩
    rw [h1, normalizeURLTarget, if_pos (by simp [hp])]
